import Mathlib

/-!
Verification of the Spectacles screen-streaming server
(`websocket_server.py`): a shallow embedding of its pure core
(color quantization, delta detection, greedy rectangle merging,
packetization, the single-client connection state machine, and the
sun-phase color clock), together with proofs of the spec's testable
properties.
-/

/-! ## Basic geometry -/

abbrev Coord := Nat × Nat

abbrev Color := Nat × Nat × Nat

/-- A merged rectangle, fields as in the dict returned by
`grow_rectangle_greedy`: origin `x,y`, size `w,h`, color `r,g,b`. -/
structure Rect where
  x : Nat
  y : Nat
  w : Nat
  h : Nat
  r : Nat
  g : Nat
  b : Nat
deriving DecidableEq, Repr

/-- Membership of a coordinate in a rectangle's covered cell set. -/
def rectMem (rc : Rect) (p : Coord) : Bool :=
  decide (rc.x ≤ p.1) && decide (p.1 < rc.x + rc.w) &&
  decide (rc.y ≤ p.2) && decide (p.2 < rc.y + rc.h)

/-- The coordinates scanned by
`for y in range(H): for x in range(W)`, in that order. -/
def gridCoords (W H : Nat) : List Coord :=
  (List.range H).flatMap (fun y => (List.range W).map (fun x => (x, y)))

theorem mem_gridCoords (W H : Nat) (p : Coord) :
    p ∈ gridCoords W H ↔ p.1 < W ∧ p.2 < H := by
  cases p with
  | mk x y =>
    simp only [gridCoords, List.mem_flatMap, List.mem_map, List.mem_range]
    constructor
    · rintro ⟨y', hy', x', hx', h⟩
      cases h
      exact ⟨hx', hy'⟩
    · rintro ⟨hx, hy⟩
      exact ⟨y, hy, x, hx, rfl⟩

theorem nodup_gridCoords (W H : Nat) : (gridCoords W H).Nodup := by
  rw [gridCoords, List.nodup_flatMap]
  constructor
  · intro y _
    exact (List.nodup_range W).map (fun a b h => by
      simpa using congrArg Prod.fst h)
  · refine List.Pairwise.imp ?_ (List.pairwise_lt_range H)
    intro a b hab
    simp only [List.Disjoint, List.mem_map, List.mem_range]
    rintro p ⟨x₁, _, rfl⟩ ⟨x₂, _, h⟩
    exact absurd (congrArg Prod.snd h) (by simpa using hab.ne')

/-! ## ColorQuantizer (`quantize_color`) -/

/-- `quantize_color(color, levels)`:
`step = 256 // levels`; each channel maps to
`(c // step) * step + step // 2`. -/
def quantize_color (levels : Nat) (c : Color) : Color :=
  let step := 256 / levels
  (c.1 / step * step + step / 2,
   c.2.1 / step * step + step / 2,
   c.2.2 / step * step + step / 2)

theorem quantize_channel_idem (c : Nat) :
    (c / 16 * 16 + 8) / 16 * 16 + 8 = c / 16 * 16 + 8 := by
  omega

/-- C5: quantization is idempotent — for every color triple with
channels in 0..255 and the default 16 levels,
`quantize_color (quantize_color c) = quantize_color c`. -/
theorem quantize_color_idempotent (c : Color)
    (h : c.1 ≤ 255 ∧ c.2.1 ≤ 255 ∧ c.2.2 ≤ 255) :
    quantize_color 16 (quantize_color 16 c) = quantize_color 16 c := by
  obtain ⟨c1, c2, c3⟩ := c
  simp only [quantize_color]
  norm_num
  omega

/-- C5 witness: the idempotence theorem applied at the concrete
color (3, 77, 200). -/
theorem quantize_color_idempotent_witness :
    ((3, 77, 200) : Color).1 ≤ 255 ∧ ((3, 77, 200) : Color).2.1 ≤ 255 ∧
      ((3, 77, 200) : Color).2.2 ≤ 255 ∧
    quantize_color 16 (quantize_color 16 (3, 77, 200)) =
      quantize_color 16 (3, 77, 200) :=
  ⟨by decide, by decide, by decide,
   quantize_color_idempotent (3, 77, 200) (by decide)⟩

/-! ## DeltaDetector (step 1 of `generate_delta_packets`) -/

/-- A captured frame: dimensions plus a pixel function
(`screenshot.load()` after `convert('RGB')`). -/
structure Frame where
  w : Nat
  h : Nat
  px : Nat → Nat → Color

/-- PIL pixel access `pixels[x, y]`: `none` models the IndexError raised
on an out-of-bounds access. -/
def getPx (f : Frame) (x y : Nat) : Option Color :=
  if x < f.w ∧ y < f.h then some (f.px x y) else none

theorem getPx_isSome_iff (f : Frame) (x y : Nat) :
    (getPx f x y).isSome ↔ x < f.w ∧ y < f.h := by
  unfold getPx
  split <;> simp_all

/-- One iteration of the changed-pixel scan at coordinate `p`: read both
pixels, and if the raw colors differ
(`prev_r != new_r or prev_g != new_g or prev_b != new_b`)
record the coordinate with the quantized new color.  The outer `Option`
is the error monad (out-of-bounds read); the inner `Option` is whether
an entry is added to `changed_pixels`. -/
def delta_at (prev nw : Frame) (p : Coord) : Option (Option (Coord × Color)) :=
  match getPx prev p.1 p.2, getPx nw p.1 p.2 with
  | some pc, some nc =>
      some (if pc ≠ nc then some (p, quantize_color 16 nc) else none)
  | _, _ => none

/-- The entry the scan produces for an in-bounds coordinate `p`. -/
def deltaEntry (prev nw : Frame) (p : Coord) : Option (Coord × Color) :=
  if prev.px p.1 p.2 ≠ nw.px p.1 p.2
  then some (p, quantize_color 16 (nw.px p.1 p.2)) else none

/-- The pixel loop of step 1: visit each coordinate in order, propagating
a pixel-access error and otherwise accumulating the produced entries. -/
def scanPixels (prev nw : Frame) : List Coord → Option (List (Coord × Color))
  | [] => some []
  | p :: rest =>
    match delta_at prev nw p with
    | none => none
    | some e =>
      match scanPixels prev nw rest with
      | none => none
      | some l =>
        some (match e with | some ent => ent :: l | none => l)

/-- Step 1 of `generate_delta_packets`: scan the session grid
`screen_width × screen_height` in row-major order and collect the
changed-pixel entries; `none` models a raised pixel-access error. -/
def delta_scan (W H : Nat) (prev nw : Frame) : Option (List (Coord × Color)) :=
  scanPixels prev nw (gridCoords W H)

theorem scanPixels_isSome (prev nw : Frame) (l : List Coord) :
    (scanPixels prev nw l).isSome ↔ ∀ p ∈ l, (delta_at prev nw p).isSome := by
  induction l with
  | nil => simp [scanPixels]
  | cons a t ih =>
    cases hda : delta_at prev nw a with
    | none =>
      simp only [scanPixels, hda, Option.isSome_none]
      constructor
      · intro h
        exact absurd h (by decide)
      · intro h
        have ha := h a (List.mem_cons_self a t)
        rw [hda] at ha
        exact absurd ha (by decide)
    | some e =>
      have hsc : (scanPixels prev nw (a :: t)).isSome
          = (scanPixels prev nw t).isSome := by
        cases hst : scanPixels prev nw t <;> simp [scanPixels, hda, hst]
      rw [hsc, ih]
      constructor
      · intro h p hp
        rcases List.mem_cons.mp hp with rfl | hp'
        · simp [hda]
        · exact h p hp'
      · intro h p hp
        exact h p (List.mem_cons_of_mem a hp)

theorem scanPixels_eq_filterMap (prev nw : Frame) (l : List Coord)
    (h : ∀ p ∈ l, delta_at prev nw p = some (deltaEntry prev nw p)) :
    scanPixels prev nw l = some (l.filterMap (deltaEntry prev nw)) := by
  induction l with
  | nil => rfl
  | cons a t ih =>
    have ha := h a (List.mem_cons_self a t)
    have ht := ih (fun x hx => h x (List.mem_cons_of_mem a hx))
    cases hda : deltaEntry prev nw a with
    | none => simp [scanPixels, ha, hda, ht, List.filterMap_cons]
    | some e => simp [scanPixels, ha, hda, ht, List.filterMap_cons]

theorem delta_at_eq_of_inb (prev nw : Frame) (p : Coord)
    (h1 : p.1 < prev.w) (h2 : p.2 < prev.h) (h3 : p.1 < nw.w)
    (h4 : p.2 < nw.h) :
    delta_at prev nw p = some (deltaEntry prev nw p) := by
  unfold delta_at deltaEntry getPx
  simp [h1, h2, h3, h4]

theorem delta_scan_eq_filterMap (W H : Nat) (prev nw : Frame)
    (h1 : W ≤ prev.w) (h2 : H ≤ prev.h) (h3 : W ≤ nw.w) (h4 : H ≤ nw.h) :
    delta_scan W H prev nw =
      some ((gridCoords W H).filterMap (deltaEntry prev nw)) := by
  unfold delta_scan
  refine scanPixels_eq_filterMap prev nw _ ?_
  intro p hp
  rw [mem_gridCoords] at hp
  exact delta_at_eq_of_inb prev nw p (lt_of_lt_of_le hp.1 h1)
    (lt_of_lt_of_le hp.2 h2) (lt_of_lt_of_le hp.1 h3)
    (lt_of_lt_of_le hp.2 h4)

theorem map_fst_filterMap_deltaEntry (prev nw : Frame) (l : List Coord) :
    (l.filterMap (deltaEntry prev nw)).map Prod.fst =
      l.filter (fun p => (deltaEntry prev nw p).isSome) := by
  induction l with
  | nil => rfl
  | cons a t ih =>
    cases hda : deltaEntry prev nw a with
    | none => simp [List.filterMap_cons, List.filter_cons, hda, ih]
    | some e =>
      have he : e.1 = a := by
        unfold deltaEntry at hda
        split at hda
        · cases hda; rfl
        · cases hda
      simp [List.filterMap_cons, List.filter_cons, hda, ih, he]

theorem deltaEntry_eq_some_iff (prev nw : Frame) (a p : Coord) (c : Color) :
    deltaEntry prev nw a = some (p, c) ↔
      a = p ∧ prev.px p.1 p.2 ≠ nw.px p.1 p.2 ∧
        c = quantize_color 16 (nw.px p.1 p.2) := by
  unfold deltaEntry
  split <;> rename_i hne
  · constructor
    · intro h
      obtain ⟨rfl, rfl⟩ := Prod.mk.injEq .. ▸ Option.some.injEq .. ▸ h
      exact ⟨rfl, hne, rfl⟩
    · rintro ⟨rfl, _, rfl⟩
      rfl
  · constructor
    · intro h
      cases h
    · rintro ⟨rfl, hd, rfl⟩
      exact absurd hd hne

theorem delta_at_isSome_iff (prev nw : Frame) (p : Coord) :
    (delta_at prev nw p).isSome ↔
      (p.1 < prev.w ∧ p.2 < prev.h) ∧ p.1 < nw.w ∧ p.2 < nw.h := by
  unfold delta_at
  cases hp : getPx prev p.1 p.2 with
  | none =>
    have hb := getPx_isSome_iff prev p.1 p.2
    rw [hp] at hb
    simp only [Option.isSome_none] at hb ⊢
    constructor
    · intro h
      exact absurd h (by decide)
    · intro h
      exact absurd (hb.mpr h.1) (by decide)
  | some pc =>
    have hpb := (getPx_isSome_iff prev p.1 p.2).mp (by rw [hp]; rfl)
    cases hn : getPx nw p.1 p.2 with
    | none =>
      have hnb := getPx_isSome_iff nw p.1 p.2
      rw [hn] at hnb
      simp only [Option.isSome_none] at hnb
      simp only [Option.isSome_none]
      constructor
      · intro h
        exact absurd h (by decide)
      · intro h
        exact absurd (hnb.mpr h.2) (by decide)
    | some nc =>
      have hnb := (getPx_isSome_iff nw p.1 p.2).mp (by rw [hn]; rfl)
      simp [hpb, hnb]

/-- The delta scan succeeds iff the session grid lies inside both frames'
bounds (vacuously when the grid is empty); equality of the two frames'
dimensions is never consulted. -/
theorem delta_scan_isSome_iff (W H : Nat) (prev nw : Frame) :
    (delta_scan W H prev nw).isSome ↔
      (W = 0 ∨ H = 0 ∨
        (W ≤ prev.w ∧ H ≤ prev.h ∧ W ≤ nw.w ∧ H ≤ nw.h)) := by
  unfold delta_scan
  rw [scanPixels_isSome]
  constructor
  · intro h
    by_cases hW : W = 0
    · exact Or.inl hW
    by_cases hH : H = 0
    · exact Or.inr (Or.inl hH)
    refine Or.inr (Or.inr ?_)
    have hp := h (W - 1, H - 1)
      ((mem_gridCoords W H _).2 (by constructor <;> omega))
    rw [delta_at_isSome_iff] at hp
    simp only at hp
    omega
  · intro h p hp
    rw [mem_gridCoords] at hp
    rw [delta_at_isSome_iff]
    rcases h with h | h | h <;> [omega; omega; skip]
    exact ⟨⟨lt_of_lt_of_le hp.1 h.1, lt_of_lt_of_le hp.2 h.2.1⟩,
      lt_of_lt_of_le hp.1 h.2.2.1, lt_of_lt_of_le hp.2 h.2.2.2⟩

/-- Concrete frames for C8: a 2×1 previous frame and a 3×1 new frame —
unequal dimensions — scanned over a 2×1 session grid. -/
def framePrevC8 : Frame := ⟨2, 1, fun _ _ => (0, 0, 0)⟩

def frameNewC8 : Frame := ⟨3, 1, fun x _ => (x, 0, 0)⟩

/-- C8 counterexample: the delta detector, given frames of unequal
dimensions, raises no error of any kind — it scans the fixed session grid
and succeeds, so "fails with a DimensionMismatch error" is false. -/
theorem delta_scan_no_dimension_check :
    framePrevC8.w ≠ frameNewC8.w ∧
    delta_scan 2 1 framePrevC8 frameNewC8 = some [((1, 0), (8, 8, 8))] := by
  refine ⟨by decide, rfl⟩

/-- Concrete frames for C2: 1×1 frames whose single pixels differ in raw
color but agree after quantization. -/
def framePrevC2 : Frame := ⟨1, 1, fun _ _ => (0, 0, 0)⟩

def frameNewC2 : Frame := ⟨1, 1, fun _ _ => (1, 0, 0)⟩

/-- C2 counterexample: for the equal-dimension frames `framePrevC2` and
`frameNewC2`, coordinate (0,0) has equal post-quantization colors, yet the
changed-pixel mapping contains an entry for it — the code compares raw
colors, not quantized ones, so the claim "contains no entry for any
coordinate whose post-quantization colors are equal" is false. -/
theorem delta_scan_entry_despite_quantize_equal :
    framePrevC2.w = frameNewC2.w ∧ framePrevC2.h = frameNewC2.h ∧
    quantize_color 16 (framePrevC2.px 0 0) =
      quantize_color 16 (frameNewC2.px 0 0) ∧
    delta_scan 1 1 framePrevC2 frameNewC2 = some [((0, 0), (8, 8, 8))] := by
  refine ⟨rfl, rfl, rfl, rfl⟩

/-- C2 amended: for frames of equal dimensions the changed-pixel mapping
contains exactly one entry for every coordinate whose RAW colors differ,
each entry carrying the new pixel's quantized color, and no entry for any
coordinate whose raw colors are equal. -/
theorem delta_scan_raw_diff (prev nw : Frame)
    (hw : prev.w = nw.w) (hh : prev.h = nw.h) :
    ∃ l, delta_scan prev.w prev.h prev nw = some l ∧
      (l.map Prod.fst).Nodup ∧
      (∀ p c, (p, c) ∈ l ↔
        p.1 < prev.w ∧ p.2 < prev.h ∧
        prev.px p.1 p.2 ≠ nw.px p.1 p.2 ∧
        c = quantize_color 16 (nw.px p.1 p.2)) := by
  refine ⟨(gridCoords prev.w prev.h).filterMap (deltaEntry prev nw),
    delta_scan_eq_filterMap _ _ _ _ le_rfl le_rfl (hw ▸ le_rfl)
      (hh ▸ le_rfl), ?_, ?_⟩
  · rw [map_fst_filterMap_deltaEntry]
    exact (nodup_gridCoords prev.w prev.h).filter _
  · intro p c
    rw [List.mem_filterMap]
    constructor
    · rintro ⟨a, ha, hda⟩
      rw [deltaEntry_eq_some_iff] at hda
      obtain ⟨rfl, hd, rfl⟩ := hda
      rw [mem_gridCoords] at ha
      exact ⟨ha.1, ha.2, hd, rfl⟩
    · rintro ⟨hx, hy, hd, rfl⟩
      exact ⟨p, (mem_gridCoords _ _ _).2 ⟨hx, hy⟩,
        (deltaEntry_eq_some_iff _ _ _ _ _).2 ⟨rfl, hd, rfl⟩⟩

/-! ## Packetizer -/

def RECTANGLES_PER_PACKET : Nat := 100000

/-- The slicing loop of step 3 of `generate_delta_packets`:
`for i in range(0, len(rectangles), B): batch = rectangles[i:i+B]`.
(The `B = 0` guard is only to make the recursion terminate; the source
always calls it with `B = RECTANGLES_PER_PACKET > 0`.) -/
def sliceChunks {α : Type} (B : Nat) (l : List α) : List (List α) :=
  if l.isEmpty then []
  else if B = 0 then []
  else l.take B :: sliceChunks B (l.drop B)
termination_by l.length
decreasing_by
  rename_i h1 h2
  have hl : l ≠ [] := by
    intro h
    subst h
    simp at h1
  have := List.length_pos.mpr hl
  simp only [List.length_drop]
  omega

theorem sliceChunks_nil {α : Type} (B : Nat) :
    sliceChunks B ([] : List α) = [] := by
  rw [sliceChunks]
  rfl

theorem sliceChunks_cons {α : Type} (B : Nat) (hB : B ≠ 0) (a : α)
    (t : List α) :
    sliceChunks B (a :: t) =
      (a :: t).take B :: sliceChunks B ((a :: t).drop B) := by
  rw [sliceChunks]
  simp [hB]

theorem chunk_count_step (L B : Nat) (hB : 0 < B) (hL : 0 < L) :
    (L - B + B - 1) / B + 1 = (L + B - 1) / B := by
  rcases Nat.lt_or_ge L B with hc | hc
  · have h5 : L - B + B - 1 = B - 1 := by omega
    have h4 : L + B - 1 = (L - 1) + B := by omega
    rw [h5, h4, Nat.add_div_right _ hB, Nat.div_eq_of_lt (by omega),
      Nat.div_eq_of_lt (by omega)]
  · have h5 : L - B + B - 1 = L - 1 := by omega
    have h4 : L + B - 1 = (L - 1) + B := by omega
    rw [h5, h4, Nat.add_div_right _ hB]

theorem sliceChunks_spec_aux {α : Type} (B : Nat) (hB : 0 < B) :
    ∀ (n : Nat) (l : List α), l.length ≤ n →
      (sliceChunks B l).flatten = l ∧
      (sliceChunks B l).length = (l.length + B - 1) / B ∧
      (∀ c ∈ (sliceChunks B l).dropLast, c.length = B) ∧
      (∀ c ∈ sliceChunks B l, c ≠ []) := by
  intro n
  induction n with
  | zero =>
    intro l hl
    have : l = [] := List.length_eq_zero.mp (Nat.le_zero.mp hl)
    subst this
    refine ⟨by simp [sliceChunks_nil], ?_, by simp [sliceChunks_nil],
      by simp [sliceChunks_nil]⟩
    rw [sliceChunks_nil]
    simp only [List.length_nil]
    rw [Nat.div_eq_of_lt (by omega)]
  | succ n ih =>
    intro l hl
    cases l with
    | nil =>
      refine ⟨by simp [sliceChunks_nil], ?_, by simp [sliceChunks_nil],
        by simp [sliceChunks_nil]⟩
      rw [sliceChunks_nil]
      simp only [List.length_nil]
      rw [Nat.div_eq_of_lt (by omega)]
    | cons a t =>
      rw [sliceChunks_cons B (by omega) a t]
      have hrest : ((a :: t).drop B).length ≤ n := by
        simp only [List.length_drop, List.length_cons]
        simp only [List.length_cons] at hl
        omega
      obtain ⟨ihj, ihl, ihd, ihne⟩ := ih ((a :: t).drop B) hrest
      refine ⟨?_, ?_, ?_, ?_⟩
      · rw [List.flatten_cons, ihj, List.take_append_drop]
      · simp only [List.length_cons, ihl, List.length_drop]
        exact chunk_count_step (t.length + 1) B hB (by omega)
      · cases hc : sliceChunks B ((a :: t).drop B) with
        | nil => simp
        | cons c cs =>
          intro d hd
          rw [List.dropLast_cons₂] at hd
          rcases List.mem_cons.mp hd with rfl | hd'
          · have hne : (a :: t).drop B ≠ [] := by
              intro h
              rw [h, sliceChunks_nil] at hc
              cases hc
            have hlt : B < t.length + 1 := by
              by_contra hcon
              exact hne (List.drop_eq_nil_of_le
                (by simp only [List.length_cons]; omega))
            simp only [List.length_take, List.length_cons]
            omega
          · exact ihd d (hc ▸ hd')
      · intro c hc
        rcases List.mem_cons.mp hc with rfl | hc'
        · intro h
          have := congrArg List.length h
          simp [List.length_take] at this
          omega
        · exact ihne c hc'

/-- C3 helper: all four packetization properties of the slicing loop. -/
theorem sliceChunks_spec {α : Type} (B : Nat) (hB : 0 < B) (l : List α) :
    (sliceChunks B l).flatten = l ∧
    (sliceChunks B l).length = (l.length + B - 1) / B ∧
    (∀ c ∈ (sliceChunks B l).dropLast, c.length = B) ∧
    (∀ c ∈ sliceChunks B l, c ≠ []) :=
  sliceChunks_spec_aux B hB l.length l le_rfl

/-- The buffering loop of `generate_screenshot_packets`: append each item
to `pixel_buffer`, flush a packet when the buffer reaches
`pixels_per_packet`, and flush the non-empty remainder at the end. -/
def bufferLoop {α : Type} (B : Nat) : List α → List α → List (List α)
  | buf, [] => if buf.isEmpty then [] else [buf]
  | buf, a :: rest =>
    if B ≤ (buf ++ [a]).length then (buf ++ [a]) :: bufferLoop B [] rest
    else bufferLoop B (buf ++ [a]) rest

theorem bufferLoop_eq_sliceChunks {α : Type} (B : Nat) (hB : 0 < B) :
    ∀ (l buf : List α), buf.length < B →
      bufferLoop B buf l = sliceChunks B (buf ++ l) := by
  intro l
  induction l with
  | nil =>
    intro buf hbuf
    cases hb : buf with
    | nil => simp [bufferLoop, sliceChunks_nil]
    | cons b bs =>
      rw [List.append_nil]
      rw [sliceChunks_cons B (by omega) b bs]
      have h1 : (b :: bs).take B = b :: bs :=
        List.take_of_length_le (by rw [← hb]; omega)
      have h2 : (b :: bs).drop B = [] :=
        List.drop_eq_nil_of_le (by rw [← hb]; omega)
      simp [bufferLoop, h1, h2, sliceChunks_nil]
  | cons a rest ih =>
    intro buf hbuf
    show (if B ≤ (buf ++ [a]).length then
        (buf ++ [a]) :: bufferLoop B [] rest
      else bufferLoop B (buf ++ [a]) rest) = _
    have hlen : (buf ++ [a]).length = buf.length + 1 := by simp
    by_cases hfl : B ≤ (buf ++ [a]).length
    · have hBeq : B = buf.length + 1 := by omega
      rw [if_pos hfl, ih [] (by simpa using hB), List.nil_append]
      have hcons : buf ++ a :: rest = (buf ++ [a]) ++ rest := by simp
      rw [hcons]
      have hne : ((buf ++ [a]) ++ rest).isEmpty = false := by
        cases hba : buf ++ [a] with
        | nil => simp at hba
        | cons c cs => rfl
      conv_rhs => rw [sliceChunks]
      rw [if_neg (by simp [hne]), if_neg (show ¬ B = 0 from by omega)]
      rw [List.take_append_eq_append_take,
        List.take_of_length_le (show (buf ++ [a]).length ≤ B from by omega),
        show B - (buf ++ [a]).length = 0 from by omega,
        List.take_zero, List.append_nil,
        List.drop_append_eq_append_drop,
        List.drop_eq_nil_of_le (show (buf ++ [a]).length ≤ B from by omega),
        show B - (buf ++ [a]).length = 0 from by omega,
        List.drop_zero, List.nil_append]
    · rw [if_neg hfl, ih (buf ++ [a]) (by omega)]
      simp

abbrev ScreenPixel := Nat × Nat × Color

/-- The pixel list built by `generate_screenshot_packets`: row-major scan
of the frame, with the y coordinate flipped (`[x, height - 1 - y, r, g, b]`). -/
def screenshot_pixels (f : Frame) : List ScreenPixel :=
  (gridCoords f.w f.h).map (fun p => (p.1, f.h - 1 - p.2, f.px p.1 p.2))

/-- `generate_screenshot_packets(screenshot, pixels_per_packet)`,
as the list of per-packet pixel lists it yields. -/
def generate_screenshot_packets (B : Nat) (f : Frame) :
    List (List ScreenPixel) :=
  bufferLoop B [] (screenshot_pixels f)

/-- Step 3 of `generate_delta_packets`: slice the rectangle list into
`rectangle_packet`s of at most `RECTANGLES_PER_PACKET` rectangles each. -/
def rectangle_packets (rectangles : List Rect) : List (List Rect) :=
  sliceChunks RECTANGLES_PER_PACKET rectangles

/-- C3: with capacity `B = RECTANGLES_PER_PACKET > 0`, the rectangle
packetizer emits exactly `⌈L/B⌉` packets, every packet but the last holds
exactly `B` rectangles, concatenating the packets in emission order
reproduces the input, zero rectangles yield zero packets and no emitted
packet is empty; and the buffered raw-pixel packetizer
`generate_screenshot_packets` satisfies the same bounds over its pixel
list. -/
theorem packetizer_bound (l : List Rect) (f : Frame) :
    0 < RECTANGLES_PER_PACKET ∧
    ((rectangle_packets l).length =
        (l.length + RECTANGLES_PER_PACKET - 1) / RECTANGLES_PER_PACKET ∧
      (∀ c ∈ (rectangle_packets l).dropLast,
        c.length = RECTANGLES_PER_PACKET) ∧
      (rectangle_packets l).flatten = l ∧
      (l = [] → rectangle_packets l = []) ∧
      (∀ c ∈ rectangle_packets l, c ≠ [])) ∧
    ((generate_screenshot_packets RECTANGLES_PER_PACKET f).length =
        ((screenshot_pixels f).length + RECTANGLES_PER_PACKET - 1) /
          RECTANGLES_PER_PACKET ∧
      (∀ c ∈ (generate_screenshot_packets RECTANGLES_PER_PACKET f).dropLast,
        c.length = RECTANGLES_PER_PACKET) ∧
      (generate_screenshot_packets RECTANGLES_PER_PACKET f).flatten =
        screenshot_pixels f ∧
      (screenshot_pixels f = [] →
        generate_screenshot_packets RECTANGLES_PER_PACKET f = []) ∧
      (∀ c ∈ generate_screenshot_packets RECTANGLES_PER_PACKET f, c ≠ [])) := by
  have hB : 0 < RECTANGLES_PER_PACKET := by
    rw [RECTANGLES_PER_PACKET]
    omega
  have hr := sliceChunks_spec RECTANGLES_PER_PACKET hB l
  have hbl := bufferLoop_eq_sliceChunks RECTANGLES_PER_PACKET hB
    (screenshot_pixels f) [] (by simpa using hB)
  have hs := sliceChunks_spec RECTANGLES_PER_PACKET hB (screenshot_pixels f)
  rw [List.nil_append] at hbl
  refine ⟨hB, ⟨hr.2.1, hr.2.2.1, hr.1, ?_, hr.2.2.2⟩,
    ?_, ?_, ?_, ?_, ?_⟩
  · intro h
    rw [rectangle_packets, h, sliceChunks_nil]
  · rw [generate_screenshot_packets, hbl]
    exact hs.2.1
  · rw [generate_screenshot_packets, hbl]
    exact hs.2.2.1
  · rw [generate_screenshot_packets, hbl]
    exact hs.1
  · intro h
    rw [generate_screenshot_packets, hbl, h, sliceChunks_nil]
  · rw [generate_screenshot_packets, hbl]
    exact hs.2.2.2

/-! ## RectangleMerger (`merge_pixels_to_rectangles`, `grow_rectangle_greedy`) -/

/-- The `changed_pixels` dict: a mapping from coordinates to quantized
colors (`none` = key absent). -/
abbrev ChangedPixels := Coord → Option Color

/-- The pixel test shared by both growth phases:
`(x, y) in changed_pixels and changed_pixels[(x, y)] == color and
(x, y) not in visited`. -/
def growCond (cp : ChangedPixels) (vis : Coord → Bool) (color : Color)
    (p : Coord) : Bool :=
  decide (cp p = some color) && !(vis p)

/-- Step 1 of `grow_rectangle_greedy`: expand `max_x` rightward while the
next pixel on the seed row is changed, matches the color and is
unvisited.  `fuel` bounds the while loop; callers pass the grid width,
which suffices because changed pixels lie inside the grid. -/
def growX (cp : ChangedPixels) (vis : Coord → Bool) (color : Color)
    (y : Nat) : Nat → Nat → Nat
  | x, 0 => x
  | x, fuel + 1 =>
    if growCond cp vis color (x + 1, y) then growX cp vis color y (x + 1) fuel
    else x

/-- The row check of step 2: every pixel of the candidate row `ty` between
`x0` and `maxX` is changed, matches the color and is unvisited
(all-or-nothing row acceptance). -/
def rowOk (cp : ChangedPixels) (vis : Coord → Bool) (color : Color)
    (x0 maxX ty : Nat) : Bool :=
  (List.range (maxX + 1 - x0)).all (fun i => growCond cp vis color (x0 + i, ty))

/-- Step 2 of `grow_rectangle_greedy`: expand `max_y` downward while the
entire next row passes `rowOk`. -/
def growY (cp : ChangedPixels) (vis : Coord → Bool) (color : Color)
    (x0 maxX : Nat) : Nat → Nat → Nat
  | y, 0 => y
  | y, fuel + 1 =>
    if rowOk cp vis color x0 maxX (y + 1) then
      growY cp vis color x0 maxX (y + 1) fuel
    else y

/-- `grow_rectangle_greedy`: grow from the seed `(x0, y0)` (X first, then
Y), then mark every covered cell visited (steps 3–4); returns the
rectangle and the updated visited set. -/
def grow_rectangle_greedy (cp : ChangedPixels) (vis : Coord → Bool)
    (x0 y0 : Nat) (color : Color) (W H : Nat) : Rect × (Coord → Bool) :=
  let maxX := growX cp vis color y0 x0 W
  let maxY := growY cp vis color x0 maxX y0 H
  let rect : Rect := ⟨x0, y0, maxX - x0 + 1, maxY - y0 + 1,
    color.1, color.2.1, color.2.2⟩
  (rect, fun p => vis p || rectMem rect p)

/-- The loop body of `merge_pixels_to_rectangles` at coordinate `p`:
if `p` is a changed, unvisited pixel, grow a rectangle from it and
append it. -/
def mergeStep (cp : ChangedPixels) (W H : Nat)
    (st : (Coord → Bool) × List Rect) (p : Coord) :
    (Coord → Bool) × List Rect :=
  match cp p, st.1 p with
  | some color, false =>
    let g := grow_rectangle_greedy cp st.1 p.1 p.2 color W H
    (g.2, st.2 ++ [g.1])
  | _, _ => st

/-- `merge_pixels_to_rectangles`: scan the grid in row-major order,
growing a rectangle from every changed unvisited coordinate. -/
def merge_pixels_to_rectangles (W H : Nat) (cp : ChangedPixels) :
    List Rect :=
  ((gridCoords W H).foldl (mergeStep cp W H) (fun _ => false, [])).2

theorem growCond_iff (cp : ChangedPixels) (vis : Coord → Bool)
    (color : Color) (p : Coord) :
    growCond cp vis color p = true ↔ cp p = some color ∧ vis p = false := by
  simp [growCond]

theorem growX_ge (cp : ChangedPixels) (vis : Coord → Bool) (color : Color)
    (y : Nat) : ∀ (fuel x : Nat), x ≤ growX cp vis color y x fuel := by
  intro fuel
  induction fuel with
  | zero =>
    intro x
    exact le_rfl
  | succ n ih =>
    intro x
    simp only [growX]
    by_cases h : growCond cp vis color (x + 1, y) = true
    · rw [if_pos h]
      exact le_trans (by omega) (ih (x + 1))
    · rw [if_neg h]

theorem growX_spec (cp : ChangedPixels) (vis : Coord → Bool) (color : Color)
    (y : Nat) : ∀ (fuel x x' : Nat), x < x' →
      x' ≤ growX cp vis color y x fuel →
      growCond cp vis color (x', y) = true := by
  intro fuel
  induction fuel with
  | zero =>
    intro x x' h1 h2
    simp only [growX] at h2
    exact absurd h2 (by omega)
  | succ n ih =>
    intro x x' h1 h2
    simp only [growX] at h2
    by_cases h : growCond cp vis color (x + 1, y) = true
    · rw [if_pos h] at h2
      by_cases hx : x' = x + 1
      · rw [hx]
        exact h
      · exact ih (x + 1) x' (by omega) h2
    · rw [if_neg h] at h2
      exact absurd h2 (by omega)

theorem rowOk_spec (cp : ChangedPixels) (vis : Coord → Bool) (color : Color)
    (x0 maxX ty : Nat) (h : rowOk cp vis color x0 maxX ty = true)
    (x : Nat) (hx1 : x0 ≤ x) (hx2 : x ≤ maxX) :
    growCond cp vis color (x, ty) = true := by
  rw [rowOk, List.all_eq_true] at h
  have hh := h (x - x0) (List.mem_range.mpr (by omega))
  rw [show x0 + (x - x0) = x from by omega] at hh
  exact hh

theorem growY_ge (cp : ChangedPixels) (vis : Coord → Bool) (color : Color)
    (x0 maxX : Nat) : ∀ (fuel y : Nat), y ≤ growY cp vis color x0 maxX y fuel := by
  intro fuel
  induction fuel with
  | zero =>
    intro y
    exact le_rfl
  | succ n ih =>
    intro y
    simp only [growY]
    by_cases h : rowOk cp vis color x0 maxX (y + 1) = true
    · rw [if_pos h]
      exact le_trans (by omega) (ih (y + 1))
    · rw [if_neg h]

theorem growY_spec (cp : ChangedPixels) (vis : Coord → Bool) (color : Color)
    (x0 maxX : Nat) : ∀ (fuel y y' : Nat), y < y' →
      y' ≤ growY cp vis color x0 maxX y fuel →
      rowOk cp vis color x0 maxX y' = true := by
  intro fuel
  induction fuel with
  | zero =>
    intro y y' h1 h2
    simp only [growY] at h2
    exact absurd h2 (by omega)
  | succ n ih =>
    intro y y' h1 h2
    simp only [growY] at h2
    by_cases h : rowOk cp vis color x0 maxX (y + 1) = true
    · rw [if_pos h] at h2
      by_cases hy : y' = y + 1
      · rw [hy]
        exact h
      · exact ih (y + 1) y' (by omega) h2
    · rw [if_neg h] at h2
      exact absurd h2 (by omega)

theorem rectMem_mk_iff (x0 y0 maxX maxY : Nat) (hx : x0 ≤ maxX)
    (hy : y0 ≤ maxY) (r g b : Nat) (p : Coord) :
    rectMem ⟨x0, y0, maxX - x0 + 1, maxY - y0 + 1, r, g, b⟩ p = true ↔
      x0 ≤ p.1 ∧ p.1 ≤ maxX ∧ y0 ≤ p.2 ∧ p.2 ≤ maxY := by
  simp only [rectMem, Bool.and_eq_true, decide_eq_true_eq]
  omega

/-- The core facts about one call of `grow_rectangle_greedy` from a
changed, unvisited seed: every cell of the produced rectangle was a
changed pixel of the seed's color and unvisited; the seed is covered;
the new visited set adds exactly the rectangle's cells; and the
rectangle records the seed position and color. -/
theorem grow_spec (cp : ChangedPixels) (vis : Coord → Bool) (x0 y0 : Nat)
    (color : Color) (W H : Nat)
    (hcp : cp (x0, y0) = some color) (hvis : vis (x0, y0) = false) :
    (∀ p, rectMem (grow_rectangle_greedy cp vis x0 y0 color W H).1 p = true →
      cp p = some color ∧ vis p = false) ∧
    rectMem (grow_rectangle_greedy cp vis x0 y0 color W H).1 (x0, y0) = true := by
  simp only [grow_rectangle_greedy]
  have hX : x0 ≤ growX cp vis color y0 x0 W := growX_ge cp vis color y0 W x0
  have hY : y0 ≤ growY cp vis color x0 (growX cp vis color y0 x0 W) y0 H :=
    growY_ge cp vis color x0 _ H y0
  refine ⟨?_, ?_⟩
  · intro p hp
    rw [rectMem_mk_iff _ _ _ _ hX hY] at hp
    obtain ⟨hp1, hp2, hp3, hp4⟩ := hp
    rcases Nat.eq_or_lt_of_le hp3 with hy0 | hy0
    · rcases Nat.eq_or_lt_of_le hp1 with hx0 | hx0
      · have hpe : p = (x0, y0) := by
          obtain ⟨pa, pb⟩ := p
          simp only at hx0 hy0
          rw [← hx0, ← hy0]
        rw [hpe]
        exact ⟨hcp, hvis⟩
      · have hgc := growX_spec cp vis color y0 W x0 p.1 hx0 hp2
        have hpe : p = (p.1, y0) := by
          obtain ⟨pa, pb⟩ := p
          simp only at hy0 ⊢
          rw [← hy0]
        rw [hpe]
        exact (growCond_iff _ _ _ _).1 hgc
    · have hrow := growY_spec cp vis color x0 _ H y0 p.2 hy0 hp4
      have hgc := rowOk_spec cp vis color x0 _ p.2 hrow p.1 hp1 hp2
      have hpe : p = (p.1, p.2) := rfl
      rw [hpe]
      exact (growCond_iff _ _ _ _).1 hgc
  · rw [rectMem_mk_iff _ _ _ _ hX hY]
    exact ⟨le_rfl, hX, le_rfl, hY⟩

/-- The loop invariant of `merge_pixels_to_rectangles`: emitted rectangles
are color-pure, the visited set is exactly the union of their cells, and
they are pairwise disjoint. -/
def MergeInv (cp : ChangedPixels) (st : (Coord → Bool) × List Rect) : Prop :=
  (∀ r ∈ st.2, ∀ p, rectMem r p = true → cp p = some (r.r, r.g, r.b)) ∧
  (∀ p, st.1 p = true ↔ ∃ r ∈ st.2, rectMem r p = true) ∧
  List.Pairwise
    (fun r₁ r₂ => ∀ p, ¬(rectMem r₁ p = true ∧ rectMem r₂ p = true)) st.2

theorem mergeStep_inv (cp : ChangedPixels) (W H : Nat)
    (st : (Coord → Bool) × List Rect) (p : Coord) (hinv : MergeInv cp st) :
    MergeInv cp (mergeStep cp W H st p) := by
  obtain ⟨hpure, hvis, hdisj⟩ := hinv
  unfold mergeStep
  cases hcp : cp p with
  | none => exact ⟨hpure, hvis, hdisj⟩
  | some color =>
    cases hv : st.1 p with
    | true => exact ⟨hpure, hvis, hdisj⟩
    | false =>
      show MergeInv cp
        ((grow_rectangle_greedy cp st.1 p.1 p.2 color W H).2,
         st.2 ++ [(grow_rectangle_greedy cp st.1 p.1 p.2 color W H).1])
      obtain ⟨hg1, hg2⟩ := grow_spec cp st.1 p.1 p.2 color W H hcp hv
      refine ⟨?_, ?_, ?_⟩
      · intro r hr q hq
        rcases List.mem_append.mp hr with hro | hrn
        · exact hpure r hro q hq
        · rw [List.mem_singleton] at hrn
          subst hrn
          rw [(hg1 q hq).1]
          rfl
      · intro q
        constructor
        · intro hq
          have hq' : (st.1 q ||
              rectMem (grow_rectangle_greedy cp st.1 p.1 p.2 color W H).1 q)
              = true := hq
          cases h1 : st.1 q with
          | true =>
            obtain ⟨r, hr, hrq⟩ := (hvis q).1 h1
            exact ⟨r, List.mem_append_left _ hr, hrq⟩
          | false =>
            rw [h1] at hq'
            have h2 : rectMem
                (grow_rectangle_greedy cp st.1 p.1 p.2 color W H).1 q
                = true := by simpa using hq'
            exact ⟨_, List.mem_append_right _ (List.mem_singleton_self _), h2⟩
        · rintro ⟨r, hr, hrq⟩
          show (st.1 q ||
            rectMem (grow_rectangle_greedy cp st.1 p.1 p.2 color W H).1 q)
            = true
          rcases List.mem_append.mp hr with hro | hrn
          · rw [(hvis q).2 ⟨r, hro, hrq⟩]
            rfl
          · rw [List.mem_singleton] at hrn
            subst hrn
            rw [hrq]
            simp
      · rw [List.pairwise_append]
        refine ⟨hdisj, List.pairwise_singleton _ _, ?_⟩
        intro r₁ hr₁ r₂ hr₂
        rw [List.mem_singleton] at hr₂
        subst hr₂
        intro q hq
        have hvq : st.1 q = true := (hvis q).2 ⟨r₁, hr₁, hq.1⟩
        have hfq := (hg1 q hq.2).2
        rw [hvq] at hfq
        cases hfq

theorem mergeStep_vis_mono (cp : ChangedPixels) (W H : Nat)
    (st : (Coord → Bool) × List Rect) (p q : Coord) (h : st.1 q = true) :
    (mergeStep cp W H st p).1 q = true := by
  unfold mergeStep
  cases hcp : cp p with
  | none => exact h
  | some color =>
    cases hv : st.1 p with
    | true => exact h
    | false =>
      show (st.1 q ||
        rectMem (grow_rectangle_greedy cp st.1 p.1 p.2 color W H).1 q) = true
      rw [h]
      rfl

theorem foldl_merge_inv (cp : ChangedPixels) (W H : Nat) (l : List Coord)
    (st : (Coord → Bool) × List Rect) (h : MergeInv cp st) :
    MergeInv cp (l.foldl (mergeStep cp W H) st) := by
  induction l generalizing st with
  | nil => exact h
  | cons a t ih => exact ih _ (mergeStep_inv cp W H st a h)

theorem foldl_vis_mono (cp : ChangedPixels) (W H : Nat) (l : List Coord)
    (st : (Coord → Bool) × List Rect) (q : Coord) (h : st.1 q = true) :
    (l.foldl (mergeStep cp W H) st).1 q = true := by
  induction l generalizing st with
  | nil => exact h
  | cons a t ih => exact ih _ (mergeStep_vis_mono cp W H st a q h)

theorem foldl_merge_covers (cp : ChangedPixels) (W H : Nat) (l : List Coord)
    (st : (Coord → Bool) × List Rect) (q : Coord) (hq : q ∈ l)
    (hsome : (cp q).isSome = true) :
    (l.foldl (mergeStep cp W H) st).1 q = true := by
  induction l generalizing st with
  | nil => cases hq
  | cons a t ih =>
    rcases List.mem_cons.mp hq with rfl | hq'
    · rw [List.foldl_cons]
      apply foldl_vis_mono
      unfold mergeStep
      cases hcp : cp q with
      | none =>
        rw [hcp] at hsome
        exact absurd hsome (by decide)
      | some color =>
        cases hv : st.1 q with
        | true => exact hv
        | false =>
          have hg2 := (grow_spec cp st.1 q.1 q.2 color W H hcp hv).2
          have hg2' : rectMem
              (grow_rectangle_greedy cp st.1 q.1 q.2 color W H).1 q
              = true := hg2
          show (st.1 q ||
            rectMem (grow_rectangle_greedy cp st.1 q.1 q.2 color W H).1 q)
            = true
          rw [hv, hg2']
          rfl
    · rw [List.foldl_cons]
      exact ih (mergeStep cp W H st a) hq'

/-- C1: for every changed-pixel mapping supported inside the grid, the
rectangles returned by `merge_pixels_to_rectangles` form an exact cover:
every changed coordinate lies inside exactly one returned rectangle, the
returned rectangles are pairwise disjoint, and every coordinate inside a
returned rectangle is present in the mapping with exactly that
rectangle's stated r,g,b color. -/
theorem merge_pixels_exact_cover (W H : Nat) (cp : ChangedPixels)
    (hb : ∀ p c, cp p = some c → p.1 < W ∧ p.2 < H) :
    (∀ p c, cp p = some c →
      ∃! r, r ∈ merge_pixels_to_rectangles W H cp ∧ rectMem r p = true) ∧
    List.Pairwise
      (fun r₁ r₂ => ∀ p, ¬(rectMem r₁ p = true ∧ rectMem r₂ p = true))
      (merge_pixels_to_rectangles W H cp) ∧
    (∀ r ∈ merge_pixels_to_rectangles W H cp, ∀ p, rectMem r p = true →
      cp p = some (r.r, r.g, r.b)) := by
  have hinv0 : MergeInv cp ((fun _ => false), []) :=
    ⟨by simp, by simp, List.Pairwise.nil⟩
  obtain ⟨hpure, hvis, hdisj⟩ :=
    foldl_merge_inv cp W H (gridCoords W H) _ hinv0
  refine ⟨?_, hdisj, hpure⟩
  intro p c hc
  have hmem : p ∈ gridCoords W H := (mem_gridCoords W H p).2 (hb p c hc)
  have hvisp := foldl_merge_covers cp W H (gridCoords W H)
    ((fun _ => false), []) p hmem (by rw [hc]; rfl)
  obtain ⟨r, hr, hrp⟩ := (hvis p).1 hvisp
  refine ⟨r, ⟨hr, hrp⟩, ?_⟩
  rintro r' ⟨hr', hrp'⟩
  by_contra hne
  have hsymm : Symmetric
      (fun r₁ r₂ : Rect => ∀ p, ¬(rectMem r₁ p = true ∧ rectMem r₂ p = true)) :=
    fun a b h q hq => h q ⟨hq.2, hq.1⟩
  exact hdisj.forall hsymm hr' hr hne p ⟨hrp', hrp⟩

/-- C1 witness mapping: the spec's scenario A — a 2×2 grid whose left
column is quantized red and right column quantized blue. -/
def cpExample : ChangedPixels := fun p =>
  if p.1 = 0 ∧ p.2 ≤ 1 then some (248, 8, 8)
  else if p.1 = 1 ∧ p.2 ≤ 1 then some (8, 8, 248)
  else none

theorem cpExample_bounds : ∀ p c, cpExample p = some c →
    p.1 < 2 ∧ p.2 < 2 := by
  intro p c h
  unfold cpExample at h
  split at h
  · rename_i h1
    omega
  · split at h
    · rename_i h2
      omega
    · cases h

/-- C1 witness: the exact-cover theorem applied to the concrete 2×2
two-column mapping `cpExample`. -/
theorem merge_pixels_exact_cover_witness :
    (∀ p c, cpExample p = some c → p.1 < 2 ∧ p.2 < 2) ∧
    ((∀ p c, cpExample p = some c →
      ∃! r, r ∈ merge_pixels_to_rectangles 2 2 cpExample ∧
        rectMem r p = true) ∧
    List.Pairwise
      (fun r₁ r₂ => ∀ p, ¬(rectMem r₁ p = true ∧ rectMem r₂ p = true))
      (merge_pixels_to_rectangles 2 2 cpExample) ∧
    (∀ r ∈ merge_pixels_to_rectangles 2 2 cpExample, ∀ p,
      rectMem r p = true → cpExample p = some (r.r, r.g, r.b))) :=
  ⟨cpExample_bounds, merge_pixels_exact_cover 2 2 cpExample cpExample_bounds⟩

/-! ## ConnectionGate and Broadcaster (`handle_client`, `broadcast_message`) -/

def SPECTACLES_IP : String := "172.20.10.9"

/-- The server's module-level state: the single `current_client` slot and
the `last_sent_message` dedup cell, plus a history of the connections the
server has closed and of the payload sends it performed (recorded so the
claims can speak about them). -/
structure ServerState where
  current : Option Nat
  lastSent : Option String
  closedIds : List Nat
  sends : List (Nat × String)
deriving DecidableEq, Repr

def initState : ServerState := ⟨none, none, [], []⟩

/-- The externally observable events the server reacts to: an inbound
connection handled by `handle_client`, the `finally` block of a handler
whose connection ended, and a `broadcast_message` call (`ok` = whether
the send succeeds). -/
inductive Event where
  | connect (ip : String) (id : Nat)
  | disconnect (id : Nat)
  | broadcast (msg : String) (ok : Bool)
deriving DecidableEq, Repr

/-- `handle_client` entry: reject and close a connection from a
non-allow-listed address without touching any other state; otherwise
close any existing client, install the new one as THE client and send it
the init packet. -/
def stepConnect (ip : String) (id : Nat) (s : ServerState) : ServerState :=
  if ip ≠ SPECTACLES_IP then
    { s with closedIds := id :: s.closedIds }
  else
    match s.current with
    | some c =>
      { s with current := some id, closedIds := c :: s.closedIds,
               sends := s.sends ++ [(id, "init")] }
    | none =>
      { s with current := some id, sends := s.sends ++ [(id, "init")] }

/-- `handle_client`'s `finally` block: clear the slot only if it still
holds this connection. -/
def stepDisconnect (id : Nat) (s : ServerState) : ServerState :=
  if s.current = some id then { s with current := none } else s

/-- `broadcast_message`: skip a duplicate of the last sent message;
otherwise store the message and send it to the current client if one is
connected, clearing the slot on a send failure. -/
def stepBroadcast (msg : String) (ok : Bool) (s : ServerState) : ServerState :=
  if some msg = s.lastSent then s
  else
    match s.current with
    | some c =>
      if ok then
        { s with lastSent := some msg, sends := s.sends ++ [(c, msg)] }
      else { s with lastSent := some msg, current := none }
    | none => { s with lastSent := some msg }

def step (s : ServerState) (e : Event) : ServerState :=
  match e with
  | .connect ip id => stepConnect ip id s
  | .disconnect id => stepDisconnect id s
  | .broadcast msg ok => stepBroadcast msg ok s

def run (evs : List Event) (s : ServerState) : ServerState :=
  evs.foldl step s

/-- Whether an event is a connection attempt reusing connection id `i`. -/
def isConnect (e : Event) (i : Nat) : Bool :=
  match e with
  | .connect _ j => decide (j = i)
  | _ => false

/-- The sends performed towards connection `i`. -/
def sendsTo (s : ServerState) (i : Nat) : List (Nat × String) :=
  s.sends.filter (fun e => decide (e.1 = i))

def connectEvents (ids : List Nat) : List Event :=
  ids.map (fun i => .connect SPECTACLES_IP i)

/-- C6: a connection from a non-allow-listed address is closed and
nothing else happens: no session is created — the `current_client` slot
is untouched — and no packet is ever sent on that connection. -/
theorem reject_non_allowlisted (s : ServerState) (ip : String) (id : Nat)
    (h : ip ≠ SPECTACLES_IP) :
    step s (.connect ip id) = { s with closedIds := id :: s.closedIds } ∧
    (step s (.connect ip id)).current = s.current ∧
    (step s (.connect ip id)).sends = s.sends := by
  simp only [step]
  unfold stepConnect
  rw [if_pos h]
  exact ⟨rfl, rfl, rfl⟩

/-- C6 witness: the rejection theorem applied to a concrete connection
from "192.168.1.7". -/
theorem reject_non_allowlisted_witness :
    ("192.168.1.7" : String) ≠ SPECTACLES_IP ∧
    (step initState (.connect "192.168.1.7" 5) =
      { initState with closedIds := [5] } ∧
     (step initState (.connect "192.168.1.7" 5)).current =
       initState.current ∧
     (step initState (.connect "192.168.1.7" 5)).sends = initState.sends) :=
  ⟨by decide, reject_non_allowlisted initState "192.168.1.7" 5 (by decide)⟩

/-- C7: broadcast dedup — a payload differing from the stored last-sent
message is stored and sent to the connected client exactly once, and an
immediately repeated identical payload is a complete no-op. -/
theorem broadcast_dedup (s : ServerState) (c : Nat) (m : String)
    (hc : s.current = some c) (hm : some m ≠ s.lastSent) :
    (step s (.broadcast m true)).sends = s.sends ++ [(c, m)] ∧
    (step s (.broadcast m true)).lastSent = some m ∧
    (∀ ok, step (step s (.broadcast m true)) (.broadcast m ok) =
      step s (.broadcast m true)) := by
  have h1 : step s (.broadcast m true) =
      ⟨some c, some m, s.closedIds, s.sends ++ [(c, m)]⟩ := by
    simp only [step]
    unfold stepBroadcast
    rw [if_neg hm, hc]
    rfl
  refine ⟨by rw [h1], by rw [h1], ?_⟩
  intro ok
  rw [h1]
  simp [step, stepBroadcast]

/-- C7 witness: the dedup theorem applied to a concrete state with client
3 connected and last-sent message "a", broadcasting "b". -/
theorem broadcast_dedup_witness :
    (⟨some 3, some "a", [], []⟩ : ServerState).current = some 3 ∧
    some "b" ≠ (⟨some 3, some "a", [], []⟩ : ServerState).lastSent ∧
    ((step ⟨some 3, some "a", [], []⟩ (.broadcast "b" true)).sends =
      [] ++ [(3, "b")] ∧
     (step ⟨some 3, some "a", [], []⟩ (.broadcast "b" true)).lastSent =
       some "b" ∧
     (∀ ok, step (step ⟨some 3, some "a", [], []⟩ (.broadcast "b" true))
         (.broadcast "b" ok) =
       step ⟨some 3, some "a", [], []⟩ (.broadcast "b" true))) :=
  ⟨rfl, by decide, broadcast_dedup ⟨some 3, some "a", [], []⟩ 3 "b" rfl
    (by decide)⟩

theorem stepConnect_allowed (id : Nat) (s : ServerState) :
    (stepConnect SPECTACLES_IP id s).current = some id ∧
    (∀ c, s.current = some c →
      c ∈ (stepConnect SPECTACLES_IP id s).closedIds) ∧
    (∀ j ∈ s.closedIds, j ∈ (stepConnect SPECTACLES_IP id s).closedIds) := by
  unfold stepConnect
  rw [if_neg (by simp)]
  cases hc : s.current with
  | none =>
    refine ⟨rfl, ?_, fun j hj => hj⟩
    intro c h
    cases h
  | some c =>
    refine ⟨rfl, ?_, fun j hj => List.mem_cons_of_mem _ hj⟩
    intro c' h
    rw [Option.some_inj] at h
    subst h
    exact List.mem_cons_self _ _

theorem no_further_sends_step (s : ServerState) (i : Nat) (e : Event)
    (hcur : s.current ≠ some i) (he : isConnect e i = false) :
    sendsTo (step s e) i = sendsTo s i ∧ (step s e).current ≠ some i := by
  cases e with
  | connect ip id =>
    have hid : id ≠ i := by
      simpa [isConnect] using he
    simp only [step]
    unfold stepConnect
    by_cases hip : ip ≠ SPECTACLES_IP
    · rw [if_pos hip]
      exact ⟨rfl, hcur⟩
    · rw [if_neg hip]
      cases hc : s.current with
      | none =>
        refine ⟨?_, by simp [hid]⟩
        unfold sendsTo
        simp [List.filter_append, hid]
      | some c =>
        refine ⟨?_, by simp [hid]⟩
        unfold sendsTo
        simp [List.filter_append, hid]
  | disconnect id =>
    simp only [step]
    unfold stepDisconnect
    by_cases h : s.current = some id
    · rw [if_pos h]
      exact ⟨rfl, by simp⟩
    · rw [if_neg h]
      exact ⟨rfl, hcur⟩
  | broadcast msg ok =>
    simp only [step]
    unfold stepBroadcast
    by_cases hdup : some msg = s.lastSent
    · rw [if_pos hdup]
      exact ⟨rfl, hcur⟩
    · rw [if_neg hdup]
      cases hc : s.current with
      | none => exact ⟨rfl, by simp⟩
      | some c =>
        have hci : c ≠ i := by
          intro h
          exact hcur (by rw [hc, h])
        cases ok with
        | false => exact ⟨rfl, by simp⟩
        | true =>
          refine ⟨?_, by simp [hci]⟩
          unfold sendsTo
          simp [List.filter_append, hci]

theorem no_further_sends_run (evs : List Event) (s : ServerState) (i : Nat)
    (hcur : s.current ≠ some i) (he : ∀ e ∈ evs, isConnect e i = false) :
    sendsTo (run evs s) i = sendsTo s i := by
  induction evs generalizing s with
  | nil => rfl
  | cons e t ih =>
    have h1 := no_further_sends_step s i e hcur (he e (List.mem_cons_self e t))
    have h2 : run (e :: t) s = run t (step s e) := by
      unfold run
      rw [List.foldl_cons]
    rw [h2, ih (step s e) h1.2 (fun x hx => he x (List.mem_cons_of_mem e hx)),
      h1.1]

theorem run_connects (ids : List Nat) (hne : ids ≠ []) :
    ∀ s : ServerState,
      (run (connectEvents ids) s).current = some (ids.getLast hne) ∧
      (∀ i ∈ ids.dropLast, i ∈ (run (connectEvents ids) s).closedIds) ∧
      (∀ c, s.current = some c → c ∈ (run (connectEvents ids) s).closedIds) ∧
      (∀ j ∈ s.closedIds, j ∈ (run (connectEvents ids) s).closedIds) := by
  induction ids with
  | nil => exact absurd rfl hne
  | cons a t ih =>
    intro s
    have hstep : run (connectEvents (a :: t)) s =
        run (connectEvents t) (stepConnect SPECTACLES_IP a s) := by
      unfold connectEvents run
      rw [List.map_cons, List.foldl_cons]
      rfl
    obtain ⟨hc1, hc2, hc3⟩ := stepConnect_allowed a s
    cases t with
    | nil =>
      rw [hstep]
      exact ⟨hc1, by simp, hc2, hc3⟩
    | cons b t2 =>
      obtain ⟨ih1, ih2, ih3, ih4⟩ :=
        ih (by simp) (stepConnect SPECTACLES_IP a s)
      rw [hstep]
      refine ⟨?_, ?_, ?_, ?_⟩
      · exact ih1
      · intro i hi
        rw [List.dropLast_cons₂] at hi
        rcases List.mem_cons.mp hi with rfl | hi'
        · exact ih3 i hc1
        · exact ih2 i hi'
      · intro c hcs
        exact ih4 c (hc2 c hcs)
      · intro j hj
        exact ih4 j (hc3 j hj)

/-- C4: the `current_client` slot holds at most one connection in every
reachable state; and after any nonempty sequence of connection attempts
from the allow-listed address, exactly the last one is active, every
prior one has been closed, and — as long as no later event reconnects a
prior id — no further payload is ever sent to a prior connection. -/
theorem single_active_client (ids : List Nat) (hne : ids ≠ [])
    (hnd : ids.Nodup) :
    (∀ evs : List Event, ((run evs initState).current).toList.length ≤ 1) ∧
    (run (connectEvents ids) initState).current = some (ids.getLast hne) ∧
    (∀ i ∈ ids.dropLast, i ∈ (run (connectEvents ids) initState).closedIds) ∧
    (∀ i ∈ ids.dropLast, ∀ evs' : List Event,
      (∀ e ∈ evs', isConnect e i = false) →
      sendsTo (run evs' (run (connectEvents ids) initState)) i =
        sendsTo (run (connectEvents ids) initState) i) := by
  obtain ⟨h1, h2, _, _⟩ := run_connects ids hne initState
  refine ⟨?_, h1, h2, ?_⟩
  · intro evs
    cases (run evs initState).current <;> simp
  · intro i hi evs' he
    have hlast : i ≠ ids.getLast hne := by
      have hsplit := List.dropLast_append_getLast hne
      rw [← hsplit] at hnd
      rw [List.nodup_append] at hnd
      intro h
      exact hnd.2.2 hi (h ▸ List.mem_singleton_self _)
    refine no_further_sends_run evs' _ i ?_ he
    rw [h1]
    intro h
    rw [Option.some_inj] at h
    exact hlast h.symm

/-- C4 witness: the single-active-client theorem applied to three rapid
connection attempts with ids 0, 1, 2. -/
theorem single_active_client_witness :
    ([0, 1, 2] : List Nat) ≠ [] ∧ ([0, 1, 2] : List Nat).Nodup ∧
    ((∀ evs : List Event, ((run evs initState).current).toList.length ≤ 1) ∧
     (run (connectEvents [0, 1, 2]) initState).current = some 2 ∧
     (∀ i ∈ ([0, 1, 2] : List Nat).dropLast,
       i ∈ (run (connectEvents [0, 1, 2]) initState).closedIds) ∧
     (∀ i ∈ ([0, 1, 2] : List Nat).dropLast, ∀ evs' : List Event,
       (∀ e ∈ evs', isConnect e i = false) →
       sendsTo (run evs' (run (connectEvents [0, 1, 2]) initState)) i =
         sendsTo (run (connectEvents [0, 1, 2]) initState) i)) :=
  ⟨by decide, by decide,
   single_active_client [0, 1, 2] (by decide) (by decide)⟩

/-! ## AmbientColorClock (`get_sun_phase_color`, shape of `fetch_sun_times`) -/

abbrev Color4 := ℚ × ℚ × ℚ × ℚ

/-- The sun-times dict built by `fetch_sun_times`: each boundary is the
result of a `parse_time` call, which yields `None` for a malformed
timestamp field, so every field is optional.  Timestamps are modelled as
integers (datetimes are totally ordered). -/
structure SunTimes where
  astronomical_dawn : Option Int
  sunrise : Option Int
  solar_noon : Option Int
  sunset : Option Int
  astronomical_dusk : Option Int
deriving DecidableEq, Repr

/-- A Python chained comparison `a <= now < b` where `a`, `b` may be
`None`: `a <= now` is evaluated first (raising `TypeError`, modelled as
`.error ()`, when `a` is `None`), and `now < b` is evaluated only when
the first test holds. -/
def chainLeLt (a : Option Int) (now : Int) (b : Option Int) :
    Except Unit Bool :=
  match a with
  | none => .error ()
  | some x =>
    if x ≤ now then
      match b with
      | none => .error ()
      | some y => .ok (decide (now < y))
    else .ok false

/-- `get_sun_phase_color`: missing sun-times data defaults to the night
pair; otherwise the chronological chain of half-open interval tests, each
of which can raise a `TypeError` when it touches a `None` boundary. -/
def get_sun_phase_color (sun_times : Option SunTimes) (now : Int) :
    Except Unit (Color4 × String) :=
  match sun_times with
  | none => .ok ((1, 0, 0, 1), "night")
  | some t =>
    match chainLeLt t.astronomical_dawn now t.sunrise with
    | .error e => .error e
    | .ok true => .ok ((1, 1, 0, 1), "dawn")
    | .ok false =>
      match chainLeLt t.sunrise now t.solar_noon with
      | .error e => .error e
      | .ok true => .ok ((0, 0, 1, 1), "morning")
      | .ok false =>
        match chainLeLt t.solar_noon now t.sunset with
        | .error e => .error e
        | .ok true => .ok ((0, 1, 1, 1), "afternoon")
        | .ok false =>
          match chainLeLt t.sunset now t.astronomical_dusk with
          | .error e => .error e
          | .ok true => .ok ((1, 1/2, 0, 1), "dusk")
          | .ok false => .ok ((1, 0, 0, 1), "night")

/-- C9: with all five boundaries present and ordered, the function returns
the dawn/morning/afternoon/dusk pair on the corresponding half-open
interval, the night pair at every other time, and the night pair whenever
the sun-times data is unavailable. -/
theorem sun_phase_intervals (t : SunTimes) (d1 d2 d3 d4 d5 now : Int)
    (h1 : t.astronomical_dawn = some d1) (h2 : t.sunrise = some d2)
    (h3 : t.solar_noon = some d3) (h4 : t.sunset = some d4)
    (h5 : t.astronomical_dusk = some d5)
    (hord : d1 ≤ d2 ∧ d2 ≤ d3 ∧ d3 ≤ d4 ∧ d4 ≤ d5) :
    (d1 ≤ now ∧ now < d2 →
      get_sun_phase_color (some t) now = .ok ((1, 1, 0, 1), "dawn")) ∧
    (d2 ≤ now ∧ now < d3 →
      get_sun_phase_color (some t) now = .ok ((0, 0, 1, 1), "morning")) ∧
    (d3 ≤ now ∧ now < d4 →
      get_sun_phase_color (some t) now = .ok ((0, 1, 1, 1), "afternoon")) ∧
    (d4 ≤ now ∧ now < d5 →
      get_sun_phase_color (some t) now = .ok ((1, 1/2, 0, 1), "dusk")) ∧
    (now < d1 ∨ d5 ≤ now →
      get_sun_phase_color (some t) now = .ok ((1, 0, 0, 1), "night")) ∧
    get_sun_phase_color none now = .ok ((1, 0, 0, 1), "night") := by
  obtain ⟨ho1, ho2, ho3, ho4⟩ := hord
  unfold get_sun_phase_color chainLeLt
  simp only [h1, h2, h3, h4, h5]
  refine ⟨?_, ?_, ?_, ?_, ?_, by trivial⟩
  · rintro ⟨ha, hb⟩
    rw [if_pos ha, decide_eq_true hb]
  · rintro ⟨ha, hb⟩
    rw [if_pos (le_trans ho1 ha), decide_eq_false (not_lt.mpr ha),
      if_pos ha, decide_eq_true hb]
  · rintro ⟨ha, hb⟩
    rw [if_pos (le_trans ho1 (le_trans ho2 ha)),
      decide_eq_false (not_lt.mpr (le_trans ho2 ha)),
      if_pos (le_trans ho2 ha), decide_eq_false (not_lt.mpr ha),
      if_pos ha, decide_eq_true hb]
  · rintro ⟨ha, hb⟩
    rw [if_pos (le_trans ho1 (le_trans ho2 (le_trans ho3 ha))),
      decide_eq_false (not_lt.mpr (le_trans ho2 (le_trans ho3 ha))),
      if_pos (le_trans ho2 (le_trans ho3 ha)),
      decide_eq_false (not_lt.mpr (le_trans ho3 ha)),
      if_pos (le_trans ho3 ha), decide_eq_false (not_lt.mpr ha),
      if_pos ha, decide_eq_true hb]
  · rintro (hlt | hge)
    · rw [if_neg (not_le.mpr hlt),
        if_neg (not_le.mpr (lt_of_lt_of_le hlt ho1)),
        if_neg (not_le.mpr (lt_of_lt_of_le hlt (le_trans ho1 ho2))),
        if_neg (not_le.mpr (lt_of_lt_of_le hlt (le_trans ho1 (le_trans ho2 ho3))))]
    · rw [if_pos (le_trans ho1 (le_trans ho2 (le_trans ho3 (le_trans ho4 hge)))),
        decide_eq_false (not_lt.mpr (le_trans ho2 (le_trans ho3 (le_trans ho4 hge)))),
        if_pos (le_trans ho2 (le_trans ho3 (le_trans ho4 hge))),
        decide_eq_false (not_lt.mpr (le_trans ho3 (le_trans ho4 hge))),
        if_pos (le_trans ho3 (le_trans ho4 hge)),
        decide_eq_false (not_lt.mpr (le_trans ho4 hge)),
        if_pos (le_trans ho4 hge), decide_eq_false (not_lt.mpr hge)]

/-- A concrete well-formed sun-times record for witnesses. -/
def sunTimesEx : SunTimes := ⟨some 10, some 20, some 30, some 40, some 50⟩

/-- C9 witness: the interval theorem applied to concrete ordered
boundaries 10 < 20 < 30 < 40 < 50 at time 25. -/
theorem sun_phase_intervals_witness :
    sunTimesEx.astronomical_dawn = some 10 ∧ sunTimesEx.sunrise = some 20 ∧
    sunTimesEx.solar_noon = some 30 ∧ sunTimesEx.sunset = some 40 ∧
    sunTimesEx.astronomical_dusk = some 50 ∧
    ((10 : Int) ≤ 20 ∧ (20 : Int) ≤ 30 ∧ (30 : Int) ≤ 40 ∧
      (40 : Int) ≤ 50) ∧
    (((10 : Int) ≤ 25 ∧ (25 : Int) < 20 →
      get_sun_phase_color (some sunTimesEx) 25 = .ok ((1, 1, 0, 1), "dawn")) ∧
    ((20 : Int) ≤ 25 ∧ (25 : Int) < 30 →
      get_sun_phase_color (some sunTimesEx) 25 =
        .ok ((0, 0, 1, 1), "morning")) ∧
    ((30 : Int) ≤ 25 ∧ (25 : Int) < 40 →
      get_sun_phase_color (some sunTimesEx) 25 =
        .ok ((0, 1, 1, 1), "afternoon")) ∧
    ((40 : Int) ≤ 25 ∧ (25 : Int) < 50 →
      get_sun_phase_color (some sunTimesEx) 25 = .ok ((1, 1/2, 0, 1), "dusk")) ∧
    ((25 : Int) < 10 ∨ (50 : Int) ≤ 25 →
      get_sun_phase_color (some sunTimesEx) 25 = .ok ((1, 0, 0, 1), "night")) ∧
    get_sun_phase_color none 25 = .ok ((1, 0, 0, 1), "night")) :=
  ⟨rfl, rfl, rfl, rfl, rfl, by decide,
   sun_phase_intervals sunTimesEx 10 20 30 40 50 25 rfl rfl rfl rfl rfl
     (by decide)⟩

/-- All five boundaries parsed successfully. -/
def allBoundsSome (t : SunTimes) : Prop :=
  t.astronomical_dawn.isSome = true ∧ t.sunrise.isSome = true ∧
  t.solar_noon.isSome = true ∧ t.sunset.isSome = true ∧
  t.astronomical_dusk.isSome = true

theorem chainLeLt_isOk (x : Int) (now : Int) (y : Int) :
    ∃ b, chainLeLt (some x) now (some y) = .ok b := by
  show ∃ b, (if x ≤ now then (Except.ok (decide (now < y)) : Except Unit Bool)
    else .ok false) = .ok b
  by_cases h : x ≤ now
  · rw [if_pos h]
    exact ⟨_, rfl⟩
  · rw [if_neg h]
    exact ⟨false, rfl⟩

/-- C10: `get_sun_phase_color` is total exactly when its argument is
`None` or every boundary is present — with no data or with all five
boundaries it returns a pair for every time, and whenever some boundary
is `None` there is a time at which the interval comparison raises a
`TypeError` instead of degrading to the night color. -/
theorem sun_phase_totality :
    (∀ (st : Option SunTimes) (now : Int),
      (st = none ∨ ∃ t, st = some t ∧ allBoundsSome t) →
      ∃ v, get_sun_phase_color st now = .ok v) ∧
    (∀ t : SunTimes, ¬allBoundsSome t →
      ∃ now, get_sun_phase_color (some t) now = .error ()) := by
  constructor
  · intro st now hst
    rcases hst with rfl | ⟨t, rfl, hall⟩
    · exact ⟨_, rfl⟩
    · obtain ⟨ha1, ha2, ha3, ha4, ha5⟩ := hall
      obtain ⟨d1, hd1⟩ := Option.isSome_iff_exists.mp ha1
      obtain ⟨d2, hd2⟩ := Option.isSome_iff_exists.mp ha2
      obtain ⟨d3, hd3⟩ := Option.isSome_iff_exists.mp ha3
      obtain ⟨d4, hd4⟩ := Option.isSome_iff_exists.mp ha4
      obtain ⟨d5, hd5⟩ := Option.isSome_iff_exists.mp ha5
      unfold get_sun_phase_color
      simp only [hd1, hd2, hd3, hd4, hd5]
      obtain ⟨b1, hb1⟩ := chainLeLt_isOk d1 now d2
      rw [hb1]
      cases b1 with
      | true => exact ⟨_, rfl⟩
      | false =>
        obtain ⟨b2, hb2⟩ := chainLeLt_isOk d2 now d3
        rw [hb2]
        cases b2 with
        | true => exact ⟨_, rfl⟩
        | false =>
          obtain ⟨b3, hb3⟩ := chainLeLt_isOk d3 now d4
          rw [hb3]
          cases b3 with
          | true => exact ⟨_, rfl⟩
          | false =>
            obtain ⟨b4, hb4⟩ := chainLeLt_isOk d4 now d5
            rw [hb4]
            cases b4 with
            | true => exact ⟨_, rfl⟩
            | false => exact ⟨_, rfl⟩
  · intro t hall
    cases hd1 : t.astronomical_dawn with
    | none =>
      refine ⟨0, ?_⟩
      unfold get_sun_phase_color chainLeLt
      simp only [hd1]
    | some d1 =>
      cases hd2 : t.sunrise with
      | none =>
        refine ⟨d1, ?_⟩
        unfold get_sun_phase_color chainLeLt
        simp only [hd1, hd2]
        rw [if_pos (le_refl d1)]
      | some d2 =>
        cases hd3 : t.solar_noon with
        | none =>
          refine ⟨max d1 d2, ?_⟩
          unfold get_sun_phase_color chainLeLt
          simp only [hd1, hd2, hd3]
          rw [if_pos (le_max_left d1 d2),
            decide_eq_false (not_lt.mpr (le_max_right d1 d2)),
            if_pos (le_max_right d1 d2)]
        | some d3 =>
          cases hd4 : t.sunset with
          | none =>
            refine ⟨max (max d1 d2) d3, ?_⟩
            unfold get_sun_phase_color chainLeLt
            simp only [hd1, hd2, hd3, hd4]
            rw [if_pos (le_trans (le_max_left d1 d2) (le_max_left _ d3)),
              decide_eq_false (not_lt.mpr
                (le_trans (le_max_right d1 d2) (le_max_left _ d3))),
              if_pos (le_trans (le_max_right d1 d2) (le_max_left _ d3)),
              decide_eq_false (not_lt.mpr (le_max_right _ d3)),
              if_pos (le_max_right _ d3)]
          | some d4 =>
            cases hd5 : t.astronomical_dusk with
            | some d5 =>
              exact absurd ⟨by rw [hd1]; rfl, by rw [hd2]; rfl,
                by rw [hd3]; rfl, by rw [hd4]; rfl, by rw [hd5]; rfl⟩ hall
            | none =>
              refine ⟨max (max (max d1 d2) d3) d4, ?_⟩
              have hm1 : d1 ≤ max (max (max d1 d2) d3) d4 :=
                le_trans (le_max_left d1 d2)
                  (le_trans (le_max_left _ d3) (le_max_left _ d4))
              have hm2 : d2 ≤ max (max (max d1 d2) d3) d4 :=
                le_trans (le_max_right d1 d2)
                  (le_trans (le_max_left _ d3) (le_max_left _ d4))
              have hm3 : d3 ≤ max (max (max d1 d2) d3) d4 :=
                le_trans (le_max_right _ d3) (le_max_left _ d4)
              have hm4 : d4 ≤ max (max (max d1 d2) d3) d4 :=
                le_max_right _ d4
              unfold get_sun_phase_color chainLeLt
              simp only [hd1, hd2, hd3, hd4, hd5]
              rw [if_pos hm1,
                decide_eq_false (not_lt.mpr hm2), if_pos hm2,
                decide_eq_false (not_lt.mpr hm3), if_pos hm3,
                decide_eq_false (not_lt.mpr hm4), if_pos hm4]

/-- A sun-times record with a malformed (unparsed) boundary. -/
def sunTimesBad : SunTimes := ⟨none, some 20, some 30, some 40, some 50⟩

/-- C10 witness: totality at a fully-parsed record, and a concrete
`TypeError` at a record with a missing boundary. -/
theorem sun_phase_totality_witness :
    (some sunTimesEx = none ∨
      ∃ t, some sunTimesEx = some t ∧ allBoundsSome t) ∧
    ¬allBoundsSome sunTimesBad ∧
    (∃ v, get_sun_phase_color (some sunTimesEx) 25 = .ok v) ∧
    (∃ now, get_sun_phase_color (some sunTimesBad) now = .error ()) :=
  ⟨Or.inr ⟨sunTimesEx, rfl, ⟨rfl, rfl, rfl, rfl, rfl⟩⟩,
   fun h => absurd h.1 (by decide),
   sun_phase_totality.1 (some sunTimesEx) 25
     (Or.inr ⟨sunTimesEx, rfl, ⟨rfl, rfl, rfl, rfl, rfl⟩⟩),
   sun_phase_totality.2 sunTimesBad (fun h => absurd h.1 (by decide))⟩

/-- C2 amended witness: the amended theorem applied to the concrete
equal-dimension frames `framePrevC2` and `frameNewC2`. -/
theorem delta_scan_raw_diff_witness :
    framePrevC2.w = frameNewC2.w ∧ framePrevC2.h = frameNewC2.h ∧
    ∃ l, delta_scan framePrevC2.w framePrevC2.h framePrevC2 frameNewC2 =
        some l ∧
      (l.map Prod.fst).Nodup ∧
      (∀ p c, (p, c) ∈ l ↔
        p.1 < framePrevC2.w ∧ p.2 < framePrevC2.h ∧
        framePrevC2.px p.1 p.2 ≠ frameNewC2.px p.1 p.2 ∧
        c = quantize_color 16 (frameNewC2.px p.1 p.2)) :=
  ⟨rfl, rfl, delta_scan_raw_diff framePrevC2 frameNewC2 rfl rfl⟩
